import Mathlib

/-!
Verification development for the redis-report dashboard.

This file gives a shallow embedding of the cache-key codec, the namespace
scanner, the aggregation engine, the CID search filter, the info-text parser
and the sanitized-config endpoint of the repository, together with theorems
settling the frozen claims about them.

Modelling conventions:
* JavaScript strings are Lean `String`s; most character processing is done on
  `List Char` (`String.data`), which is what the source's `split`, `match`
  and `startsWith` operate on.
* `undefined` / absent fields become `Option`; a TypeScript field that is
  always assigned is not an `Option` (or is `some _`).
* JavaScript objects used as string-keyed dictionaries become association
  lists with in-place update (`alSet`), preserving insertion order the way
  a JS object preserves property creation order.
* JavaScript numbers are modelled exactly (Int / Rat); IEEE double rounding
  and overflow to Infinity are not modelled.
* Async store calls become oracle functions `String → Option _` where
  `none` models a thrown/failed call (the code's empty `catch` branches).
-/

namespace RedisReport

/-! ## Generic helpers: JS-style split, association lists -/

/-- JS `s.split(c)` for a single-character separator, on char lists. -/
def jsSplitOn (sep : Char) : List Char → List (List Char)
  | [] => [[]]
  | c :: cs =>
    if c = sep then [] :: jsSplitOn sep cs
    else
      match jsSplitOn sep cs with
      | [] => [[c]]
      | g :: gs => (c :: g) :: gs

theorem jsSplitOn_ne_nil (sep : Char) (l : List Char) : jsSplitOn sep l ≠ [] := by
  cases l with
  | nil => simp [jsSplitOn]
  | cons c cs =>
    simp only [jsSplitOn]
    split
    · simp
    · split <;> simp

/-- Splitting a list that starts with a separator-free block followed by the
separator peels off that block as the first part. -/
theorem jsSplitOn_append (sep : Char) (p rest : List Char) (h : ∀ c ∈ p, c ≠ sep) :
    jsSplitOn sep (p ++ sep :: rest) = p :: jsSplitOn sep rest := by
  induction p with
  | nil => simp [jsSplitOn]
  | cons c p ih =>
    have hc : c ≠ sep := h c (by simp)
    have ih' := ih (fun d hd => h d (by simp [hd]))
    simp only [List.cons_append, jsSplitOn, if_neg hc, List.append_eq, ih']

/-- Membership test for a character, written as the code's `includes`. -/
def hasChar : List Char → Char → Bool
  | [], _ => false
  | c :: cs, x => if c = x then true else hasChar cs x

theorem jsSplitOn_headD (sep : Char) (l : List Char) :
    (jsSplitOn sep l).headD [] = l.takeWhile (fun x => x ≠ sep) := by
  induction l with
  | nil => simp [jsSplitOn]
  | cons c cs ih =>
    by_cases hc : c = sep
    · subst hc; simp [jsSplitOn, List.takeWhile]
    · simp only [jsSplitOn, if_neg hc]
      cases hsp : jsSplitOn sep cs with
      | nil => exact absurd hsp (jsSplitOn_ne_nil sep cs)
      | cons g gs =>
        simp only [List.headD, List.takeWhile]
        have : (decide (c ≠ sep)) = true := by simpa using hc
        rw [this]
        simp only [cond_true]
        have := ih
        rw [hsp] at this
        simp only [List.headD] at this
        simp [this]

theorem jsSplitOn_get1_none (sep : Char) (l : List Char) (h : hasChar l sep = false) :
    (jsSplitOn sep l).get? 1 = none := by
  induction l with
  | nil => simp [jsSplitOn]
  | cons c cs ih =>
    simp only [hasChar] at h
    by_cases hc : c = sep
    · rw [if_pos hc] at h; exact absurd h (by simp)
    · rw [if_neg hc] at h
      simp only [jsSplitOn, if_neg hc]
      cases hsp : jsSplitOn sep cs with
      | nil => exact absurd hsp (jsSplitOn_ne_nil sep cs)
      | cons g gs =>
        have := ih h
        rw [hsp] at this
        simpa using this

theorem jsSplitOn_get1_some (sep : Char) (l : List Char) (h : hasChar l sep = true) :
    (jsSplitOn sep l).get? 1 =
      some (((l.dropWhile (fun x => x ≠ sep)).tail).takeWhile (fun x => x ≠ sep)) := by
  induction l with
  | nil => simp [hasChar] at h
  | cons c cs ih =>
    by_cases hc : c = sep
    · subst hc
      rw [show jsSplitOn c (c :: cs) = [] :: jsSplitOn c cs from by simp [jsSplitOn]]
      have hget : (([] :: jsSplitOn c cs) : List (List Char)).get? 1
          = some ((jsSplitOn c cs).headD []) := by
        cases hsp : jsSplitOn c cs with
        | nil => exact absurd hsp (jsSplitOn_ne_nil c cs)
        | cons g gs => simp
      rw [hget, jsSplitOn_headD]
      have hdrop : (c :: cs).dropWhile (fun x => x ≠ c) = c :: cs := by
        simp [List.dropWhile_cons]
      rw [hdrop]
      simp
    · simp only [hasChar, if_neg hc] at h
      simp only [jsSplitOn, if_neg hc]
      cases hsp : jsSplitOn sep cs with
      | nil => exact absurd hsp (jsSplitOn_ne_nil sep cs)
      | cons g gs =>
        have hih := ih h
        rw [hsp] at hih
        simp only [List.get?] at hih ⊢
        rw [hih]
        have hdrop : (c :: cs).dropWhile (fun x => x ≠ sep) = cs.dropWhile (fun x => x ≠ sep) := by
          simp [List.dropWhile_cons, hc]
        rw [hdrop]

/-- Lookup in a JS-object-style association list. -/
def alGet {α : Type} : List (String × α) → String → Option α
  | [], _ => none
  | (k', v) :: rest, k => if k' = k then some v else alGet rest k

/-- Assignment `obj[k] = v` on a JS-object-style association list: update in
place if the key exists, else append (new property goes last). -/
def alSet {α : Type} : List (String × α) → String → α → List (String × α)
  | [], k, v => [(k, v)]
  | (k', v') :: rest, k, v =>
    if k' = k then (k, v) :: rest else (k', v') :: alSet rest k v

theorem alGet_alSet_self {α : Type} (m : List (String × α)) (k : String) (v : α) :
    alGet (alSet m k v) k = some v := by
  induction m with
  | nil => simp [alGet, alSet]
  | cons p rest ih =>
    obtain ⟨k', v'⟩ := p
    by_cases hk : k' = k
    · simp [alSet, alGet, hk]
    · simp [alSet, alGet, hk, ih]

theorem alGet_alSet_ne {α : Type} (m : List (String × α)) (k q : String) (v : α)
    (h : q ≠ k) : alGet (alSet m k v) q = alGet m q := by
  have hkq : k ≠ q := fun hh => h hh.symm
  induction m with
  | nil => simp [alGet, alSet, hkq]
  | cons p rest ih =>
    obtain ⟨k', v'⟩ := p
    by_cases hk : k' = k
    · subst hk
      simp [alSet, alGet, hkq]
    · by_cases hq : k' = q
      · subst hq
        simp [alSet, alGet, hk, hkq]
      · simp [alSet, alGet, hk, hq, ih]

/-! ## Key-pattern codec (`parseKey` in app/api/drupal/route.ts) -/

/-- TTL as stored in a row: a number or the PERSIST sentinel. -/
inductive JsTtl where
  | persist : JsTtl
  | num : Int → JsTtl
deriving DecidableEq, Repr

/-- One parsed cache key (the `Row` type of app/api/drupal/route.ts).
Optional string fields are `Option`; `isAnon` / `isAuth` are always assigned
a boolean by `parseKey` (hence `some _` there), and `ttl` / `bytes` are
filled in later by the per-key fetches. -/
structure Row where
  key : String
  bin : String
  bytes : Option Int := none
  ttl : Option JsTtl := none
  route : Option String := none
  url : Option String := none
  urlPath : Option String := none
  theme : Option String := none
  langContent : Option String := none
  langInterface : Option String := none
  isAnon : Option Bool := none
  isAuth : Option Bool := none
deriving DecidableEq, Repr

/-- The character class of JavaScript regex `.` (anything except a line
terminator). -/
def jsDot (c : Char) : Bool :=
  !(c = '\n' || c = '\r' || c = '\u2028' || c = '\u2029')

/-- The lazy capture `(.*?)(?::\[|$)` applied at a fixed start position:
the shortest run of non-line-terminator characters up to a `:[` pair or the
end of the string; `none` when a line terminator blocks the match. -/
def lazyValue : List Char → Option (List Char)
  | [] => some []
  | [c] => if jsDot c then some [c] else none
  | c1 :: c2 :: rest =>
    if c1 = ':' ∧ c2 = '[' then some []
    else if jsDot c1 then (lazyValue (c2 :: rest)).map (fun v => c1 :: v)
    else none

/-- Scan of `key.match(new RegExp("\\[label\\]=(.*?)(?::\\[|$)"))`:
try the full pattern at each position from the left, returning the first
successful capture. -/
def getLabelAux (pat : List Char) : List Char → Option (List Char)
  | [] => none
  | c :: cs =>
    if pat.isPrefixOf (c :: cs) then
      match lazyValue ((c :: cs).drop pat.length) with
      | some v => some v
      | none => getLabelAux pat cs
    else getLabelAux pat cs

/-- The `get(label)` helper of `parseKey`: extract the value of one context
label from a key, or `none` when absent. -/
def getCtx (label : String) (key : String) : Option String :=
  (getLabelAux ("[" ++ label ++ "]=").toList key.toList).map (fun l => String.mk l)

/-- `parseKey` of app/api/drupal/route.ts: split on `:`; `bin = parts[1]`
with the `unknown` sentinel for a missing or empty segment; extract each
recognized context label; the two role flags compare the extracted value
to the literal string `true`. -/
def parseKey (key : String) : Row :=
  let parts := jsSplitOn ':' key.toList
  let bin : String :=
    match parts.get? 1 with
    | some l => if l = [] then "unknown" else String.mk l
    | none => "unknown"
  let anon := getCtx "user.roles:anonymous" key
  let auth := getCtx "user.roles:authenticated" key
  { key := key
    bin := bin
    route := getCtx "route" key
    theme := getCtx "theme" key
    url := getCtx "url" key
    urlPath := getCtx "url.path" key
    langContent := getCtx "languages:language_content" key
    langInterface := getCtx "languages:language_interface" key
    isAnon := some (anon == some "true")
    isAuth := some (auth == some "true") }

/-! ### Lemmas about the label scanner -/

theorem isPrefixOf_append_self (l t : List Char) : l.isPrefixOf (l ++ t) = true := by
  induction l with
  | nil => simp [List.isPrefixOf]
  | cons c cs ih => simp [List.isPrefixOf, ih]

theorem isPrefixOf_cons_of_ne (p : List Char) (a b : Char) (s : List Char) (h : a ≠ b) :
    (a :: p).isPrefixOf (b :: s) = false := by
  simp [List.isPrefixOf, h]

theorem drop_length_append (l t : List Char) : (l ++ t).drop l.length = t := by
  induction l with
  | nil => simp
  | cons c cs ih => simpa using ih

/-- A substring test: does `pat` occur anywhere in the list? -/
def hasPat (pat : List Char) : List Char → Bool
  | [] => pat.isPrefixOf []
  | c :: cs => pat.isPrefixOf (c :: cs) || hasPat pat cs

theorem getLabelAux_of_not_hasPat (pat s : List Char) (h : hasPat pat s = false) :
    getLabelAux pat s = none := by
  induction s with
  | nil => simp [getLabelAux]
  | cons c cs ih =>
    simp only [hasPat, Bool.or_eq_false_iff] at h
    simp [getLabelAux, h.1, ih h.2]

/-- The scanner skips over a block that contains no `[` when the pattern
starts with `[`. -/
theorem getLabelAux_skip (p' a s : List Char) (ha : '[' ∉ a) :
    getLabelAux ('[' :: p') (a ++ s) = getLabelAux ('[' :: p') s := by
  induction a with
  | nil => simp
  | cons c cs ih =>
    have hc : '[' ≠ c := fun hh => ha (hh ▸ List.mem_cons_self c cs)
    have ih' := ih (fun hm => ha (List.mem_cons_of_mem c hm))
    simp [getLabelAux, isPrefixOf_cons_of_ne p' '[' c (cs ++ s) hc, ih']

/-- The scanner skips a `[` at which the rest of the pattern does not match. -/
theorem getLabelAux_skip_head (p' s : List Char) (h : p'.isPrefixOf s = false) :
    getLabelAux ('[' :: p') ('[' :: s) = getLabelAux ('[' :: p') s := by
  simp [getLabelAux, List.isPrefixOf, h]

/-- At a genuine occurrence of the pattern whose value scan succeeds, the
scanner returns that value. -/
theorem getLabelAux_hit (p' b v : List Char) (h : lazyValue b = some v) :
    getLabelAux ('[' :: p') (('[' :: p') ++ b) = some v := by
  have h1 : ('[' :: p').isPrefixOf (('[' :: p') ++ b) = true :=
    isPrefixOf_append_self _ _
  have h2 : (('[' :: p') ++ b).drop ('[' :: p').length = b := drop_length_append _ _
  simp only [List.cons_append] at h1 h2
  rw [show ('[' :: p') ++ b = '[' :: (p' ++ b) from rfl]
  simp [getLabelAux, h1, h2, h]

/-- A value consisting of plain characters with no `[` and followed by `:[`
is captured exactly. -/
theorem lazyValue_upto_sep (r z : List Char) (hdot : ∀ c ∈ r, jsDot c = true)
    (hlb : '[' ∉ r) : lazyValue (r ++ ':' :: '[' :: z) = some r := by
  induction r with
  | nil => simp [lazyValue]
  | cons c cs ih =>
    have hc : jsDot c = true := hdot c (List.mem_cons_self c cs)
    have ih' := ih (fun d hd => hdot d (List.mem_cons_of_mem c hd))
      (fun hm => hlb (List.mem_cons_of_mem c hm))
    have hne : ¬(c = ':' ∧ (cs ++ ':' :: '[' :: z).headD ' ' = '[') := by
      rintro ⟨h1, h2⟩
      cases cs with
      | nil => simp at h2
      | cons d ds =>
        simp at h2
        exact hlb (h2 ▸ List.mem_cons_of_mem c (List.mem_cons_self d ds))
    cases cs with
    | nil =>
      simp only [List.nil_append, List.cons_append, lazyValue]
      have : ¬(c = ':' ∧ ':' = '[') := by rintro ⟨h1, h2⟩; exact absurd h2 (by decide)
      rw [if_neg this, if_pos hc]
      simpa using ih'
    | cons d ds =>
      simp only [List.cons_append, lazyValue]
      have hnd : ¬(c = ':' ∧ d = '[') := by
        rintro ⟨h1, h2⟩
        exact hlb (h2 ▸ List.mem_cons_of_mem c (List.mem_cons_self d ds))
      rw [if_neg hnd, if_pos hc]
      simp only [List.append_eq, List.cons_append]
      rw [show (d :: (ds ++ ':' :: '[' :: z)) = ((d :: ds) ++ ':' :: '[' :: z) from rfl, ih']
      rfl

/-- A value of plain characters with no `[` that runs to the end of the
string is captured exactly. -/
theorem lazyValue_to_end (t : List Char) (hdot : ∀ c ∈ t, jsDot c = true)
    (hlb : '[' ∉ t) : lazyValue t = some t := by
  induction t with
  | nil => rfl
  | cons c cs ih =>
    have hc : jsDot c = true := hdot c (List.mem_cons_self c cs)
    have ih' := ih (fun d hd => hdot d (List.mem_cons_of_mem c hd))
      (fun hm => hlb (List.mem_cons_of_mem c hm))
    cases cs with
    | nil => simp [lazyValue, hc]
    | cons d ds =>
      have hnd : ¬(c = ':' ∧ d = '[') := by
        rintro ⟨h1, h2⟩
        exact hlb (h2 ▸ List.mem_cons_of_mem c (List.mem_cons_self d ds))
      simp only [lazyValue, if_neg hnd, if_pos hc, ih']
      rfl

theorem str_data_append (s t : String) : (s ++ t).data = s.data ++ t.data := rfl

theorem string_mk_data (s : String) : String.mk s.data = s := by
  cases s
  rfl

theorem string_data_ne_nil (s : String) (h : s ≠ "") : s.data ≠ [] := by
  intro hd
  apply h
  cases s
  simp only at hd
  rw [hd]

/-- The context labels recognized by `parseKey`. -/
def ctxLabels : List String :=
  ["route", "theme", "url", "url.path",
   "languages:language_content", "languages:language_interface",
   "user.roles:anonymous", "user.roles:authenticated"]

/-- Does the literal substring of the form bracket-label-bracket-equals occur
in the key? -/
def hasLabel (key lab : String) : Bool :=
  hasPat ("[" ++ lab ++ "]=").toList key.toList

theorem getCtx_eq_none_of_not_hasLabel (key lab : String)
    (h : hasLabel key lab = false) : getCtx lab key = none := by
  unfold getCtx
  rw [getLabelAux_of_not_hasPat _ _ h]
  rfl

/-- C7 (counterexample): for the no-context key `p:b:c`, the role flags are
the defined boolean `false`, not undefined, contradicting the claim that
every optional label field (including the auth/anon flags) is undefined. -/
theorem parseKey_no_ctx_flags_cex :
    (parseKey "p:b:c").isAnon = some false ∧
    (parseKey "p:b:c").isAuth = some false ∧
    (parseKey "p:b:c").isAnon ≠ none ∧
    (parseKey "p:b:c").route = none := by decide

/-- C7 (amended): for every key containing no context-parameter substring
for any recognized label, all optional string label fields of the decoded
row are undefined, and the auth/anon flags are the defined boolean `false`
(not undefined). -/
theorem parseKey_no_ctx_fields (key : String)
    (h : ∀ lab ∈ ctxLabels, hasLabel key lab = false) :
    (parseKey key).route = none ∧ (parseKey key).theme = none ∧
    (parseKey key).url = none ∧ (parseKey key).urlPath = none ∧
    (parseKey key).langContent = none ∧ (parseKey key).langInterface = none ∧
    (parseKey key).isAnon = some false ∧ (parseKey key).isAuth = some false := by
  have h1 := getCtx_eq_none_of_not_hasLabel key "route" (h "route" (by simp [ctxLabels]))
  have h2 := getCtx_eq_none_of_not_hasLabel key "theme" (h "theme" (by simp [ctxLabels]))
  have h3 := getCtx_eq_none_of_not_hasLabel key "url" (h "url" (by simp [ctxLabels]))
  have h4 := getCtx_eq_none_of_not_hasLabel key "url.path" (h "url.path" (by simp [ctxLabels]))
  have h5 := getCtx_eq_none_of_not_hasLabel key "languages:language_content"
    (h "languages:language_content" (by simp [ctxLabels]))
  have h6 := getCtx_eq_none_of_not_hasLabel key "languages:language_interface"
    (h "languages:language_interface" (by simp [ctxLabels]))
  have h7 := getCtx_eq_none_of_not_hasLabel key "user.roles:anonymous"
    (h "user.roles:anonymous" (by simp [ctxLabels]))
  have h8 := getCtx_eq_none_of_not_hasLabel key "user.roles:authenticated"
    (h "user.roles:authenticated" (by simp [ctxLabels]))
  simp [parseKey, h1, h2, h3, h4, h5, h6, h7, h8]

/-- Witness for the amended C7 theorem at the concrete key `p:b:c`. -/
theorem parseKey_no_ctx_fields_witness :
    (parseKey "p:b:c").route = none ∧ (parseKey "p:b:c").theme = none ∧
    (parseKey "p:b:c").url = none ∧ (parseKey "p:b:c").urlPath = none ∧
    (parseKey "p:b:c").langContent = none ∧ (parseKey "p:b:c").langInterface = none ∧
    (parseKey "p:b:c").isAnon = some false ∧ (parseKey "p:b:c").isAuth = some false :=
  parseKey_no_ctx_fields "p:b:c" (by decide)

/-- C1 (counterexample): decoding the key shape claimed in the spec,
`p:b:c[route]=R][theme]=T]`, does not give route `R` and theme `T`: the
capture runs to the next `:[` pair or end of string, so the route value is
`R][theme]=T]` and the theme value is `T]`. -/
theorem parseKey_bracket_terminator_cex :
    (parseKey "p:b:c[route]=R][theme]=T]").bin = "b" ∧
    (parseKey "p:b:c[route]=R][theme]=T]").route = some "R][theme]=T]" ∧
    (parseKey "p:b:c[route]=R][theme]=T]").route ≠ some "R" ∧
    (parseKey "p:b:c[route]=R][theme]=T]").theme = some "T]" ∧
    (parseKey "p:b:c[route]=R][theme]=T]").theme ≠ some "T" := by decide

/-- C1 (amended): with context parameters separated by `:[` as the decoder
expects (key `pfx:bin:cid[route]=R:[theme]=T`), and under the side
conditions that make each part recognizable (`pfx`/`bin` colon-free, all
parts bracket-free, `bin` nonempty, values made of plain characters),
decoding yields exactly the embedded bin, route and theme. -/
theorem parseKey_route_theme_decode (pfx bin cid rv tv : String)
    (hp1 : ':' ∉ pfx.toList) (hp2 : '[' ∉ pfx.toList)
    (hb1 : ':' ∉ bin.toList) (hb2 : '[' ∉ bin.toList) (hb3 : bin ≠ "")
    (hc1 : '[' ∉ cid.toList)
    (hr1 : '[' ∉ rv.toList) (hr2 : ∀ c ∈ rv.toList, jsDot c = true)
    (ht1 : '[' ∉ tv.toList) (ht2 : ∀ c ∈ tv.toList, jsDot c = true) :
    (parseKey (pfx ++ ":" ++ bin ++ ":" ++ cid ++ "[route]=" ++ rv ++ ":[theme]=" ++ tv)).bin
        = bin ∧
    (parseKey (pfx ++ ":" ++ bin ++ ":" ++ cid ++ "[route]=" ++ rv ++ ":[theme]=" ++ tv)).route
        = some rv ∧
    (parseKey (pfx ++ ":" ++ bin ++ ":" ++ cid ++ "[route]=" ++ rv ++ ":[theme]=" ++ tv)).theme
        = some tv := by
  have hlbcolon : ('[' : Char) ≠ ':' := by decide
  have hp1' : ':' ∉ pfx.data := hp1
  have hp2' : '[' ∉ pfx.data := hp2
  have hb1' : ':' ∉ bin.data := hb1
  have hb2' : '[' ∉ bin.data := hb2
  have hc1' : '[' ∉ cid.data := hc1
  have hr1' : '[' ∉ rv.data := hr1
  have ht1' : '[' ∉ tv.data := ht1
  -- the key, decomposed at the character level
  have hdata : (pfx ++ ":" ++ bin ++ ":" ++ cid ++ "[route]=" ++ rv ++ ":[theme]=" ++ tv).data
      = pfx.data ++ ':' :: (bin.data ++ ':' ::
          (cid.data ++ ('[' :: ('r' :: 'o' :: 'u' :: 't' :: 'e' :: ']' :: '=' :: []) ++
            (rv.data ++ ':' :: '[' :: (('t' :: 'h' :: 'e' :: 'm' :: 'e' :: ']' :: '=' :: []) ++ tv.data))))) := by
    simp only [str_data_append, List.append_assoc]
    rfl
  refine ⟨?_, ?_, ?_⟩
  · -- bin: parts[1] of the colon split
    have hsplit : jsSplitOn ':'
        (pfx ++ ":" ++ bin ++ ":" ++ cid ++ "[route]=" ++ rv ++ ":[theme]=" ++ tv).data
        = pfx.data :: bin.data :: jsSplitOn ':'
            (cid.data ++ ('[' :: ('r' :: 'o' :: 'u' :: 't' :: 'e' :: ']' :: '=' :: []) ++
              (rv.data ++ ':' :: '[' :: (('t' :: 'h' :: 'e' :: 'm' :: 'e' :: ']' :: '=' :: []) ++ tv.data)))) := by
      rw [hdata, jsSplitOn_append ':' pfx.data _ (fun c hc => fun he => hp1' (he ▸ hc)),
        jsSplitOn_append ':' bin.data _ (fun c hc => fun he => hb1' (he ▸ hc))]
    show (match (jsSplitOn ':'
        (pfx ++ ":" ++ bin ++ ":" ++ cid ++ "[route]=" ++ rv ++ ":[theme]=" ++ tv).data).get? 1 with
      | some l => if l = [] then "unknown" else String.mk l
      | none => "unknown") = bin
    rw [hsplit]
    simp only [List.get?]
    rw [if_neg (string_data_ne_nil bin hb3), string_mk_data]
  · -- route
    show ((getLabelAux ("[" ++ "route" ++ "]=").toList
        (pfx ++ ":" ++ bin ++ ":" ++ cid ++ "[route]=" ++ rv ++ ":[theme]=" ++ tv).toList).map
          (fun l => String.mk l)) = some rv
    have hpat : ("[" ++ "route" ++ "]=" : String).toList
        = '[' :: ('r' :: 'o' :: 'u' :: 't' :: 'e' :: ']' :: '=' :: []) := rfl
    rw [hpat]
    show ((getLabelAux _
        (pfx ++ ":" ++ bin ++ ":" ++ cid ++ "[route]=" ++ rv ++ ":[theme]=" ++ tv).data).map
          (fun l => String.mk l)) = some rv
    rw [hdata]
    have hA0 : '[' ∉ pfx.data ++ ':' :: (bin.data ++ ':' :: cid.data) := by
      intro hm
      rcases List.mem_append.mp hm with hμ | hμ
      · exact hp2' hμ
      · rcases List.mem_cons.mp hμ with hν | hν
        · exact hlbcolon hν
        · rcases List.mem_append.mp hν with hξ | hξ
          · exact hb2' hξ
          · rcases List.mem_cons.mp hξ with hο | hο
            · exact hlbcolon hο
            · exact hc1' hο
    have hassoc : pfx.data ++ ':' :: (bin.data ++ ':' ::
          (cid.data ++ ('[' :: ('r' :: 'o' :: 'u' :: 't' :: 'e' :: ']' :: '=' :: []) ++
            (rv.data ++ ':' :: '[' :: (('t' :: 'h' :: 'e' :: 'm' :: 'e' :: ']' :: '=' :: []) ++ tv.data)))))
        = (pfx.data ++ ':' :: (bin.data ++ ':' :: cid.data)) ++
            (('[' :: ('r' :: 'o' :: 'u' :: 't' :: 'e' :: ']' :: '=' :: [])) ++
              (rv.data ++ ':' :: '[' :: (('t' :: 'h' :: 'e' :: 'm' :: 'e' :: ']' :: '=' :: []) ++ tv.data))) := by
      simp [List.append_assoc]
    rw [hassoc, getLabelAux_skip _ _ _ hA0,
      getLabelAux_hit _ _ rv.data
        (lazyValue_upto_sep rv.data (('t' :: 'h' :: 'e' :: 'm' :: 'e' :: ']' :: '=' :: []) ++ tv.data) hr2 hr1')]
    simp [string_mk_data]
  · -- theme
    show ((getLabelAux ("[" ++ "theme" ++ "]=").toList
        (pfx ++ ":" ++ bin ++ ":" ++ cid ++ "[route]=" ++ rv ++ ":[theme]=" ++ tv).toList).map
          (fun l => String.mk l)) = some tv
    have hpat : ("[" ++ "theme" ++ "]=" : String).toList
        = '[' :: ('t' :: 'h' :: 'e' :: 'm' :: 'e' :: ']' :: '=' :: []) := rfl
    rw [hpat]
    show ((getLabelAux _
        (pfx ++ ":" ++ bin ++ ":" ++ cid ++ "[route]=" ++ rv ++ ":[theme]=" ++ tv).data).map
          (fun l => String.mk l)) = some tv
    rw [hdata]
    have hA0 : '[' ∉ pfx.data ++ ':' :: (bin.data ++ ':' :: cid.data) := by
      intro hm
      rcases List.mem_append.mp hm with hμ | hμ
      · exact hp2' hμ
      · rcases List.mem_cons.mp hμ with hν | hν
        · exact hlbcolon hν
        · rcases List.mem_append.mp hν with hξ | hξ
          · exact hb2' hξ
          · rcases List.mem_cons.mp hξ with hο | hο
            · exact hlbcolon hο
            · exact hc1' hο
    -- step 1: skip the prefix/bin/cid block
    have hassoc1 : pfx.data ++ ':' :: (bin.data ++ ':' ::
          (cid.data ++ ('[' :: ('r' :: 'o' :: 'u' :: 't' :: 'e' :: ']' :: '=' :: []) ++
            (rv.data ++ ':' :: '[' :: (('t' :: 'h' :: 'e' :: 'm' :: 'e' :: ']' :: '=' :: []) ++ tv.data)))))
        = (pfx.data ++ ':' :: (bin.data ++ ':' :: cid.data)) ++
            ('[' :: (('r' :: 'o' :: 'u' :: 't' :: 'e' :: ']' :: '=' :: []) ++
              (rv.data ++ ':' :: '[' :: (('t' :: 'h' :: 'e' :: 'm' :: 'e' :: ']' :: '=' :: []) ++ tv.data)))) := by
      simp [List.append_assoc]
    rw [hassoc1, getLabelAux_skip _ _ _ hA0]
    -- step 2: the bracket that opens the route label does not match theme
    have hmm : (('t' :: 'h' :: 'e' :: 'm' :: 'e' :: ']' :: '=' :: []) : List Char).isPrefixOf
        (('r' :: 'o' :: 'u' :: 't' :: 'e' :: ']' :: '=' :: []) ++
          (rv.data ++ ':' :: '[' :: (('t' :: 'h' :: 'e' :: 'm' :: 'e' :: ']' :: '=' :: []) ++ tv.data)))
        = false := by
      apply isPrefixOf_cons_of_ne
      decide
    rw [getLabelAux_skip_head _ _ hmm]
    -- step 3: skip the route label body, the route value and the colon
    have hB : '[' ∉ ('r' :: 'o' :: 'u' :: 't' :: 'e' :: ']' :: '=' :: []) ++ rv.data ++ [':'] := by
      intro hm
      rcases List.mem_append.mp hm with hμ | hμ
      · rcases List.mem_append.mp hμ with hν | hν
        · simp at hν
        · exact hr1' hν
      · simp at hμ
    have hassoc2 : (('r' :: 'o' :: 'u' :: 't' :: 'e' :: ']' :: '=' :: []) ++
          (rv.data ++ ':' :: '[' :: (('t' :: 'h' :: 'e' :: 'm' :: 'e' :: ']' :: '=' :: []) ++ tv.data)))
        = (('r' :: 'o' :: 'u' :: 't' :: 'e' :: ']' :: '=' :: []) ++ rv.data ++ [':']) ++
            (('[' :: ('t' :: 'h' :: 'e' :: 'm' :: 'e' :: ']' :: '=' :: [])) ++ tv.data) := by
      simp [List.append_assoc]
    rw [hassoc2, getLabelAux_skip _ _ _ hB,
      getLabelAux_hit _ _ tv.data (lazyValue_to_end tv.data ht2 ht1')]
    simp [string_mk_data]

/-- Witness for the amended C1 theorem at a concrete key. -/
theorem parseKey_route_theme_decode_witness :
    (parseKey "p:render:mynode[route]=front:[theme]=bartik").bin = "render" ∧
    (parseKey "p:render:mynode[route]=front:[theme]=bartik").route = some "front" ∧
    (parseKey "p:render:mynode[route]=front:[theme]=bartik").theme = some "bartik" :=
  parseKey_route_theme_decode "p" "render" "mynode" "front" "bartik"
    (by decide) (by decide) (by decide) (by decide) (by decide) (by decide)
    (by decide) (by decide) (by decide) (by decide)

/-! ## Namespace scanner (`scan` in app/api/drupal/route.ts)

The store is a function from a cursor to the pair of next cursor and key
batch (`redis.scan`); `0` is the terminal cursor sentinel. The `do/while`
loop is modelled with explicit fuel: `none` means the loop has not finished
within the given number of iterations, so nontermination of the source loop
is `∀ fuel, scanRun store cap fuel = none`. -/

/-- The inner `for` loop of `scan`: push each key of the batch; as soon as
the accumulated count reaches the cap, force the cursor to `0` and break. -/
def pushBatch (cap : Nat) : List String → List String → String → List String × String
  | keys, [], next => (keys, next)
  | keys, k :: rest, next =>
    let keys2 := keys ++ [k]
    if cap ≤ keys2.length then (keys2, "0") else pushBatch cap keys2 rest next

/-- The `do/while` loop of `scan`, one fuel unit per iteration. -/
def scanFuel (store : String → String × List String) (cap : Nat) :
    Nat → String → List String → Option (List String)
  | 0, _, _ => none
  | Nat.succ fuel, cursor, keys =>
    let nb := store cursor
    let pb := pushBatch cap keys nb.2 nb.1
    if pb.2 = "0" then some pb.1 else scanFuel store cap fuel pb.2 pb.1

/-- `scan` of app/api/drupal/route.ts: start at cursor `0`, accumulate until
the cursor returns to `0` (possibly forced by the cap). -/
def scanRun (store : String → String × List String) (cap : Nat) (fuel : Nat) :
    Option (List String) :=
  scanFuel store cap fuel "0" []

/-- Termination of the scan loop for a given store and cap. -/
def ScanTerminates (store : String → String × List String) (cap : Nat) : Prop :=
  ∃ fuel, (scanRun store cap fuel).isSome

/-- A store with a cyclic non-terminal cursor and empty batches. -/
def emptyCycleStore : String → String × List String := fun _ => ("1", [])

/-- A store holding a single key and finishing at once. -/
def oneKeyStore : String → String × List String := fun _ => ("0", ["k"])

theorem pushBatch_length_le (cap : Nat) (batch : List String) :
    ∀ keys next, keys.length < cap →
      (pushBatch cap keys batch next).1.length ≤ cap ∧
        ((pushBatch cap keys batch next).2 ≠ "0" →
          (pushBatch cap keys batch next).1.length < cap) := by
  induction batch with
  | nil => intro keys next h; exact ⟨Nat.le_of_lt h, fun _ => h⟩
  | cons k rest ih =>
    intro keys next h
    simp only [pushBatch]
    by_cases hc : cap ≤ (keys ++ [k]).length
    · rw [if_pos hc]
      refine ⟨?_, fun hne => absurd rfl hne⟩
      simp only [List.length_append, List.length_cons, List.length_nil]
      omega
    · rw [if_neg hc]
      exact ih (keys ++ [k]) next (Nat.lt_of_not_le hc)

theorem pushBatch_length_grow (cap : Nat) (batch : List String) :
    ∀ keys next, keys.length ≤ (pushBatch cap keys batch next).1.length := by
  induction batch with
  | nil => intro keys next; exact Nat.le_refl _
  | cons k rest ih =>
    intro keys next
    simp only [pushBatch]
    by_cases hc : cap ≤ (keys ++ [k]).length
    · rw [if_pos hc]
      simp
    · rw [if_neg hc]
      have h1 : keys.length ≤ (keys ++ [k]).length := by simp
      exact Nat.le_trans h1 (ih (keys ++ [k]) next)

theorem pushBatch_cons_grow (cap : Nat) (keys : List String) (k : String)
    (rest : List String) (next : String) :
    keys.length + 1 ≤ (pushBatch cap keys (k :: rest) next).1.length := by
  simp only [pushBatch]
  by_cases hc : cap ≤ (keys ++ [k]).length
  · rw [if_pos hc]; simp
  · rw [if_neg hc]
    have h1 : keys.length + 1 = (keys ++ [k]).length := by simp
    rw [h1]
    exact pushBatch_length_grow cap rest (keys ++ [k]) next

theorem pushBatch_full_breaks (cap : Nat) (keys : List String) (k : String)
    (rest : List String) (next : String) (h : cap ≤ keys.length) :
    (pushBatch cap keys (k :: rest) next).2 = "0" := by
  simp only [pushBatch]
  have hc : cap ≤ (keys ++ [k]).length := by
    simp only [List.length_append, List.length_cons, List.length_nil]
    omega
  rw [if_pos hc]

theorem scanFuel_length_le (store : String → String × List String) (cap : Nat) :
    ∀ (fuel : Nat) (cursor : String) (keys r : List String),
      keys.length < cap → scanFuel store cap fuel cursor keys = some r →
        r.length ≤ cap := by
  intro fuel
  induction fuel with
  | zero => intro cursor keys r _ h; exact absurd h (by simp [scanFuel])
  | succ fuel ih =>
    intro cursor keys r hlt h
    simp only [scanFuel] at h
    obtain ⟨hle, hcont⟩ :=
      pushBatch_length_le cap (store cursor).2 keys (store cursor).1 hlt
    by_cases hz : (pushBatch cap keys (store cursor).2 (store cursor).1).2 = "0"
    · rw [if_pos hz] at h
      cases h
      exact hle
    · rw [if_neg hz] at h
      exact ih _ _ r (hcont hz) h

theorem scanFuel_terminates (store : String → String × List String) (cap : Nat)
    (hne : ∀ c, (store c).2 ≠ []) :
    ∀ (fuel : Nat) (cursor : String) (keys : List String),
      keys.length ≤ cap → cap < keys.length + fuel →
        (scanFuel store cap fuel cursor keys).isSome := by
  intro fuel
  induction fuel with
  | zero => intro cursor keys hle hlt; omega
  | succ fuel ih =>
    intro cursor keys hle hlt
    simp only [scanFuel]
    by_cases hz : (pushBatch cap keys (store cursor).2 (store cursor).1).2 = "0"
    · rw [if_pos hz]; simp
    · rw [if_neg hz]
      rcases Nat.lt_or_ge keys.length cap with hcase | hcase
      · obtain ⟨hle2, hcont⟩ :=
          pushBatch_length_le cap (store cursor).2 keys (store cursor).1 hcase
        have hgrow : keys.length + 1 ≤
            (pushBatch cap keys (store cursor).2 (store cursor).1).1.length := by
          cases hb : (store cursor).2 with
          | nil => exact absurd hb (hne cursor)
          | cons k rest =>
            exact pushBatch_cons_grow cap keys k rest (store cursor).1
        exact ih _ _ hle2 (by omega)
      · -- the batch is nonempty and the cap is already reached: the loop breaks
        exfalso
        apply hz
        cases hb : (store cursor).2 with
        | nil => exact absurd hb (hne cursor)
        | cons k rest =>
          exact pushBatch_full_breaks cap keys k rest (store cursor).1 hcase

/-- C3 (counterexample): the scan loop does not terminate for every store
answer sequence: a store that cycles on a non-terminal cursor with empty
batches loops forever; and with a configured cap of 0, a completed scan
still reports one key, exceeding the cap. -/
theorem scan_cap_cex :
    (¬ ScanTerminates emptyCycleStore 3000) ∧
      scanRun oneKeyStore 0 1 = some ["k"] := by
  constructor
  · rintro ⟨fuel, hf⟩
    have hnone : ∀ (n : Nat) (cursor : String) (keys : List String),
        scanFuel emptyCycleStore 3000 n cursor keys = none := by
      intro n
      induction n with
      | zero => intro cursor keys; rfl
      | succ n ih =>
        intro cursor keys
        simp only [scanFuel, emptyCycleStore, pushBatch]
        rw [if_neg (by decide : ¬("1" : String) = "0")]
        exact ih "1" keys
    rw [scanRun, hnone fuel "0" []] at hf
    exact absurd hf (by simp)
  · rfl

/-- C3 (amended): whenever the scan loop completes with a cap of at least 1,
the number of scanned keys is at most the cap; and the loop terminates for
every store whose batches are all nonempty (within cap + 1 iterations).
For a store that returns empty batches under a cyclic non-terminal cursor
the loop need not terminate, and a cap of 0 can be exceeded by one key. -/
theorem scan_cap_bound (store : String → String × List String) (cap fuel : Nat)
    (r : List String) :
    (1 ≤ cap → scanRun store cap fuel = some r → r.length ≤ cap) ∧
    ((∀ c, (store c).2 ≠ []) → cap + 1 ≤ fuel → (scanRun store cap fuel).isSome) := by
  constructor
  · intro hcap h
    exact scanFuel_length_le store cap fuel "0" [] r (by simpa using hcap) h
  · intro hne hfuel
    exact scanFuel_terminates store cap hne fuel "0" [] (by simp) (by simp; omega)

/-- Witness for the amended C3 theorem: a one-key store with cap 2 finishes
within 3 iterations and stays within the cap. -/
theorem scan_cap_bound_witness :
    (["k"] : List String).length ≤ 2 ∧ (scanRun oneKeyStore 2 3).isSome = true := by
  have h := scan_cap_bound oneKeyStore 2 3 ["k"]
  exact ⟨h.1 (by decide) (by rfl), h.2 (fun c => by simp [oneKeyStore]) (by decide)⟩

/-! ## Cache aggregation engine (the fold in `GET` of app/api/drupal/route.ts) -/

/-- Per-bin accumulator. -/
structure BinStat where
  count : Nat
  totalBytes : Int
  avgTTL : Option Int
  maxBytes : Int
  maxKey : Option String
deriving DecidableEq, Repr

/-- Per-route accumulator (only for bin `dynamic_page_cache`). -/
structure RouteStat where
  bytes : Int
  count : Nat
  url : Option String
  theme : Option String
deriving DecidableEq, Repr

/-- Per-theme / per-language accumulator. -/
structure CatStat where
  bytes : Int
  count : Nat
deriving DecidableEq, Repr

/-- All five accumulators of one aggregation pass. -/
structure AggState where
  bins : List (String × BinStat)
  routes : List (String × RouteStat)
  themes : List (String × CatStat)
  langs : List (String × CatStat)
  anonCount : Nat
  authCount : Nat
deriving DecidableEq, Repr

def initAgg : AggState :=
  { bins := [], routes := [], themes := [], langs := [], anonCount := 0, authCount := 0 }

/-- `Math.round` on an exact rational: floor of the value plus one half. -/
def mathRound (q : ℚ) : Int := Rat.floor (q + 1 / 2)

/-- The running pairwise TTL average update `Math.round((avg + ttl) / 2)`. -/
def pairAvg (a t : Int) : Int := mathRound (((a : ℚ) + (t : ℚ)) / 2)

/-- JS `a || b` on two optional strings (empty string is falsy). -/
def jsOrOpt (a b : Option String) : Option String :=
  match a with
  | some s => if s = "" then b else some s
  | none => b

/-- The per-row byte count used by the fold: `r.bytes || 0`. -/
def rowBytes (r : Row) : Int :=
  match r.bytes with | some b => b | none => 0

/-- The freshly created bin accumulator. -/
def binDflt : BinStat :=
  { count := 0, totalBytes := 0, avgTTL := none, maxBytes := 0, maxKey := none }

/-- The in-place mutation of one bin accumulator for one row. -/
def binUpdate (b0 : BinStat) (r : Row) (bytes : Int) : BinStat :=
  { count := b0.count + 1
    totalBytes := b0.totalBytes + bytes
    maxBytes := if b0.maxBytes < bytes then bytes else b0.maxBytes
    maxKey := if b0.maxBytes < bytes then some r.key else b0.maxKey
    avgTTL :=
      match r.ttl with
      | some (JsTtl.num t) =>
        if 0 ≤ t then
          match b0.avgTTL with
          | none => some t
          | some a => some (pairAvg a t)
        else b0.avgTTL
      | _ => b0.avgTTL }

/-- The route-map mutation for one row: only for bin `dynamic_page_cache`
with a truthy route; `url` / `theme` are fixed at creation time. -/
def routesStep (routes : List (String × RouteStat)) (r : Row) (bytes : Int) :
    List (String × RouteStat) :=
  if r.bin = "dynamic_page_cache" then
    match r.route with
    | some s =>
      if s = "" then routes
      else
        let rt0 := (alGet routes s).getD
          { bytes := 0, count := 0, url := jsOrOpt r.url r.urlPath, theme := r.theme }
        alSet routes s { rt0 with count := rt0.count + 1, bytes := rt0.bytes + bytes }
    | none => routes
  else routes

/-- The theme-map mutation for one row (any bin, truthy theme only). -/
def themesStep (themes : List (String × CatStat)) (r : Row) (bytes : Int) :
    List (String × CatStat) :=
  match r.theme with
  | some s =>
    if s = "" then themes
    else
      let t0 := (alGet themes s).getD { bytes := 0, count := 0 }
      alSet themes s { bytes := t0.bytes + bytes, count := t0.count + 1 }
  | none => themes

/-- The language-map mutation for one row (`r.langContent || "n/a"`). -/
def langsStep (langs : List (String × CatStat)) (r : Row) (bytes : Int) :
    List (String × CatStat) :=
  let lc : String :=
    match r.langContent with
    | some s => if s = "" then "n/a" else s
    | none => "n/a"
  let l0 := (alGet langs lc).getD { bytes := 0, count := 0 }
  alSet langs lc { bytes := l0.bytes + bytes, count := l0.count + 1 }

/-- One iteration of the aggregation fold (`for (const r of rows)` body in
`GET` of app/api/drupal/route.ts). -/
def aggStep (st : AggState) (r : Row) : AggState :=
  let bytes := rowBytes r
  { bins := alSet st.bins r.bin (binUpdate ((alGet st.bins r.bin).getD binDflt) r bytes)
    routes := routesStep st.routes r bytes
    themes := themesStep st.themes r bytes
    langs := langsStep st.langs r bytes
    anonCount := if r.bin = "dynamic_page_cache" ∧ r.isAnon = some true
      then st.anonCount + 1 else st.anonCount
    authCount := if r.bin = "dynamic_page_cache" ∧ r.isAuth = some true
      then st.authCount + 1 else st.authCount }

/-- The whole aggregation pass over a row list. -/
def drupalAggregate (rows : List Row) : AggState :=
  rows.foldl aggStep initAgg

/-- Build the row for one scanned key (`parseKey` plus the best-effort TTL
and MEMORY USAGE fetches of the per-key loop; `none` from an oracle means
the corresponding call failed and the field stays undefined). -/
def buildAggRow (ttlO memO : String → Option Int) (key : String) : Row :=
  let r := parseKey key
  { r with
    ttl := (ttlO key).map (fun t => if t = -1 then JsTtl.persist else JsTtl.num t)
    bytes := memO key }

/-- Insertion into a list sorted descending by the measure (stable, matching
the JS stable sort with comparator subtraction). -/
def insertDesc {α : Type} (f : α → Int) (x : α) : List α → List α
  | [] => [x]
  | y :: ys => if f y < f x then x :: y :: ys else y :: insertDesc f x ys

/-- Stable descending sort by an integer measure. -/
def sortDesc {α : Type} (f : α → Int) (l : List α) : List α :=
  l.foldl (fun acc x => insertDesc f x acc) []

/-- The report's `bins` array: entries sorted by `totalBytes` descending. -/
def binSummary (st : AggState) : List (String × BinStat) :=
  sortDesc (fun e => e.2.totalBytes) st.bins

/-! ### C9: every key contributes one row; counts sum to the scanned total -/

/-- Sum of the `count` fields over a bin map. -/
def sumCounts (m : List (String × BinStat)) : Nat :=
  (m.map (fun e => e.2.count)).sum

theorem alSet_sum_count (m : List (String × BinStat)) (k : String) (v : BinStat) :
    sumCounts (alSet m k v) +
        (match alGet m k with | some w => w.count | none => 0)
      = sumCounts m + v.count := by
  induction m with
  | nil => simp [alSet, alGet, sumCounts]
  | cons p rest ih =>
    obtain ⟨k', w'⟩ := p
    by_cases hk : k' = k
    · simp only [alSet, alGet, if_pos hk, sumCounts, List.map_cons, List.sum_cons]
      omega
    · simp only [alSet, alGet, if_neg hk, sumCounts, List.map_cons, List.sum_cons]
      simp only [sumCounts] at ih
      omega

theorem alSet_sum_count_none (m : List (String × BinStat)) (k : String) (v : BinStat)
    (h : alGet m k = none) : sumCounts (alSet m k v) = sumCounts m + v.count := by
  have hs := alSet_sum_count m k v
  rw [h] at hs
  simpa using hs

theorem alSet_sum_count_some (m : List (String × BinStat)) (k : String)
    (v w : BinStat) (h : alGet m k = some w) :
    sumCounts (alSet m k v) + w.count = sumCounts m + v.count := by
  have hs := alSet_sum_count m k v
  rw [h] at hs
  exact hs

theorem sumCounts_aggStep (st : AggState) (r : Row) :
    sumCounts (aggStep st r).bins = sumCounts st.bins + 1 := by
  have hb : (aggStep st r).bins
      = alSet st.bins r.bin (binUpdate ((alGet st.bins r.bin).getD binDflt) r (rowBytes r)) :=
    rfl
  rw [hb]
  cases halg : alGet st.bins r.bin with
  | none =>
    rw [alSet_sum_count_none st.bins r.bin _ halg]
    have hcnt : (binUpdate ((none : Option BinStat).getD binDflt) r (rowBytes r)).count
        = 1 := rfl
    rw [hcnt]
  | some w =>
    have hs := alSet_sum_count_some st.bins r.bin
      (binUpdate ((some w).getD binDflt) r (rowBytes r)) w halg
    have hcnt : (binUpdate ((some w).getD binDflt) r (rowBytes r)).count
        = w.count + 1 := rfl
    rw [hcnt] at hs
    omega

theorem sumCounts_foldl (rows : List Row) :
    ∀ st : AggState, sumCounts (rows.foldl aggStep st).bins
      = sumCounts st.bins + rows.length := by
  induction rows with
  | nil => intro st; simp
  | cons r rest ih =>
    intro st
    simp only [List.foldl_cons, List.length_cons]
    rw [ih (aggStep st r), sumCounts_aggStep]
    omega

theorem sum_insertDesc {α : Type} (f : α → Int) (g : α → Nat) (x : α) (l : List α) :
    ((insertDesc f x l).map g).sum = g x + (l.map g).sum := by
  induction l with
  | nil => simp [insertDesc]
  | cons y ys ih =>
    simp only [insertDesc]
    by_cases hfy : f y < f x
    · rw [if_pos hfy]; simp
    · rw [if_neg hfy]
      simp only [List.map_cons, List.sum_cons, ih]
      omega

theorem sum_sortDesc {α : Type} (f : α → Int) (g : α → Nat) (l : List α) :
    ((sortDesc f l).map g).sum = (l.map g).sum := by
  have haux : ∀ (l acc : List α),
      ((l.foldl (fun acc x => insertDesc f x acc) acc).map g).sum
        = (l.map g).sum + (acc.map g).sum := by
    intro l
    induction l with
    | nil => intro acc; simp
    | cons x xs ih =>
      intro acc
      simp only [List.foldl_cons, List.map_cons, List.sum_cons]
      rw [ih (insertDesc f x acc), sum_insertDesc]
      omega
  have := haux l []
  simpa [sortDesc] using this

/-- C9: in a successful aggregation run, every scanned key contributes one
row and increments exactly one bin count, so the counts in the reported
(sorted) bin summary sum to the reported `scanned` value, whatever the
outcomes of the per-key TTL and MEMORY USAGE fetches. -/
theorem binSummary_counts_sum_scanned (keys : List String)
    (ttlO memO : String → Option Int) :
    ((binSummary (drupalAggregate (keys.map (buildAggRow ttlO memO)))).map
        (fun e => e.2.count)).sum = keys.length := by
  have h1 : ((binSummary (drupalAggregate (keys.map (buildAggRow ttlO memO)))).map
        (fun e => e.2.count)).sum
      = sumCounts (drupalAggregate (keys.map (buildAggRow ttlO memO))).bins := by
    rw [binSummary, sum_sortDesc]
    rfl
  rw [h1, drupalAggregate, sumCounts_foldl]
  simp [initAgg, sumCounts]

/-! ### C5: the running pairwise TTL average, per bin -/

/-- The TTL of a row when it counts for the average: a numeric, non-negative
TTL (PERSIST, negative and absent TTLs do not count). -/
def validTtl (r : Row) : Option Int :=
  match r.ttl with
  | some (JsTtl.num t) => if 0 ≤ t then some t else none
  | _ => none

/-- The TTLs that feed the average of one bin, in row order. -/
def ttlSeq (rows : List Row) (b : String) : List Int :=
  (rows.filter (fun r => r.bin = b)).filterMap validTtl

/-- One step of the running pairwise average described by the spec: the
first TTL is taken as-is, each later one is averaged in pairwise. -/
def ttlFoldStep (o : Option Int) (t : Int) : Option Int :=
  match o with
  | none => some t
  | some a => some (pairAvg a t)

/-- The `avgTTL` of one bin in an aggregation state (`none` when the bin is
absent or no valid TTL has been seen). -/
def binAvgTTL (st : AggState) (b : String) : Option Int :=
  (alGet st.bins b).bind (fun s => s.avgTTL)

theorem binAvgTTL_aggStep (st : AggState) (r : Row) (b : String) :
    binAvgTTL (aggStep st r) b =
      if r.bin = b then
        match validTtl r with
        | some t => ttlFoldStep (binAvgTTL st b) t
        | none => binAvgTTL st b
      else binAvgTTL st b := by
  have hb : (aggStep st r).bins
      = alSet st.bins r.bin (binUpdate ((alGet st.bins r.bin).getD binDflt) r (rowBytes r)) :=
    rfl
  by_cases hbin : r.bin = b
  · subst hbin
    rw [if_pos rfl]
    unfold binAvgTTL
    rw [hb, alGet_alSet_self]
    have havg : (binUpdate ((alGet st.bins r.bin).getD binDflt) r (rowBytes r)).avgTTL
        = match r.ttl with
          | some (JsTtl.num t) =>
            if 0 ≤ t then
              match ((alGet st.bins r.bin).getD binDflt).avgTTL with
              | none => some t
              | some a => some (pairAvg a t)
            else ((alGet st.bins r.bin).getD binDflt).avgTTL
          | _ => ((alGet st.bins r.bin).getD binDflt).avgTTL := rfl
    have hcur : ((alGet st.bins r.bin).getD binDflt).avgTTL
        = (alGet st.bins r.bin).bind (fun s => s.avgTTL) := by
      cases alGet st.bins r.bin with
      | none => rfl
      | some w => rfl
    simp only [Option.some_bind, havg, hcur]
    cases httl : r.ttl with
    | none => simp [validTtl, httl]
    | some tv =>
      cases tv with
      | persist => simp [validTtl, httl]
      | num t =>
        by_cases hpos : (0 : Int) ≤ t
        · simp only [validTtl, httl, if_pos hpos, ttlFoldStep]
        · simp [validTtl, httl, if_neg hpos]
  · rw [if_neg hbin]
    unfold binAvgTTL
    rw [hb, alGet_alSet_ne st.bins r.bin b _ (fun hh => hbin hh.symm)]

theorem binAvgTTL_foldl (b : String) (rows : List Row) :
    ∀ st : AggState, binAvgTTL (rows.foldl aggStep st) b
      = (ttlSeq rows b).foldl ttlFoldStep (binAvgTTL st b) := by
  induction rows with
  | nil => intro st; simp [ttlSeq]
  | cons r rest ih =>
    intro st
    simp only [List.foldl_cons]
    rw [ih (aggStep st r), binAvgTTL_aggStep]
    by_cases hbin : r.bin = b
    · rw [if_pos hbin]
      have hfil : ttlSeq (r :: rest) b
          = (match validTtl r with
            | some t => t :: ttlSeq rest b
            | none => ttlSeq rest b) := by
        simp only [ttlSeq, List.filter_cons, hbin]
        rw [if_pos (by simp)]
        simp only [List.filterMap_cons]
        cases validTtl r <;> rfl
      rw [hfil]
      cases validTtl r <;> simp
    · rw [if_neg hbin]
      have hfil : ttlSeq (r :: rest) b = ttlSeq rest b := by
        simp only [ttlSeq, List.filter_cons]
        rw [if_neg (by simpa using hbin)]
      rw [hfil]

/-- C5: for every sequence of rows folded into the aggregation and every
bin, the bin's `avgTTL` equals the left fold of the pairwise-average step
over the row-ordered valid TTLs of that bin: `none` until the first
non-negative numeric TTL, then that TTL, then `round((old + t) / 2)` per
subsequent valid TTL; PERSIST, negative and absent TTLs leave it unchanged. -/
theorem binAvgTTL_pairwise (rows : List Row) (b : String) :
    binAvgTTL (drupalAggregate rows) b
      = (ttlSeq rows b).foldl ttlFoldStep none := by
  rw [drupalAggregate, binAvgTTL_foldl]
  rfl


/-! ### C8: route url and theme are first-seen, never updated -/

/-- First-some choice on options (used to state the first-seen property). -/
def optOr {α : Type} (a b : Option α) : Option α :=
  match a with
  | some x => some x
  | none => b

theorem optOr_none_right {α : Type} (a : Option α) : optOr a none = a := by
  cases a <;> rfl

theorem optOr_none_left {α : Type} (b : Option α) : optOr none b = b := rfl

theorem optOr_assoc {α : Type} (a b c : Option α) :
    optOr (optOr a b) c = optOr a (optOr b c) := by
  cases a <;> cases b <;> rfl

/-- Does this row create or update the given route entry? (bin
`dynamic_page_cache`, truthy route label equal to the given route). -/
def qualifies (route : String) (r : Row) : Bool :=
  r.bin == "dynamic_page_cache" && r.route == some route

/-- The url/theme part of one route entry. -/
def routeUT (routes : List (String × RouteStat)) (s : String) :
    Option (Option String × Option String) :=
  (alGet routes s).map (fun v => (v.url, v.theme))

theorem routeUT_routesStep (routes : List (String × RouteStat)) (r : Row)
    (bytes : Int) (route : String) (hne : route ≠ "") :
    routeUT (routesStep routes r bytes) route =
      optOr (routeUT routes route)
        (if qualifies route r then some (jsOrOpt r.url r.urlPath, r.theme) else none) := by
  by_cases hbin : r.bin = "dynamic_page_cache"
  · cases hroute : r.route with
    | none =>
      have hq : qualifies route r = false := by
        simp [qualifies, hroute]
      rw [hq]
      simp only [routesStep, if_pos hbin, hroute]
      simp [optOr_none_right]
    | some s =>
      by_cases hs : s = ""
      · subst hs
        have hq : qualifies route r = false := by
          simp [qualifies, hroute]
          intro _
          exact fun hh => hne hh.symm
        rw [hq]
        simp only [routesStep, if_pos hbin, hroute, if_pos rfl]
        simp [optOr_none_right]
      · by_cases hsr : s = route
        · have hq : qualifies route r = true := by
            simp [qualifies, hroute, hbin, hsr]
          rw [hq]
          simp only [routesStep, if_pos hbin, hroute, if_neg hs]
          unfold routeUT
          rw [hsr, alGet_alSet_self]
          cases halg : alGet routes route with
          | none => simp [halg, optOr]
          | some v => simp [halg, optOr]
        · have hq : qualifies route r = false := by
            simp [qualifies, hroute]
            intro _
            exact hsr
          rw [hq]
          simp only [routesStep, if_pos hbin, hroute, if_neg hs]
          unfold routeUT
          rw [alGet_alSet_ne routes s route _ (fun hh => hsr hh.symm)]
          simp [optOr_none_right]
  · have hq : qualifies route r = false := by
      simp [qualifies, hbin]
    rw [hq]
    simp only [routesStep, if_neg hbin]
    simp [optOr_none_right]

theorem routeUT_foldl (route : String) (hne : route ≠ "") (rows : List Row) :
    ∀ st : AggState, routeUT ((rows.foldl aggStep st).routes) route
      = optOr (routeUT st.routes route)
          ((rows.find? (qualifies route)).map
            (fun r => (jsOrOpt r.url r.urlPath, r.theme))) := by
  induction rows with
  | nil => intro st; simp [optOr_none_right]
  | cons r rest ih =>
    intro st
    simp only [List.foldl_cons]
    rw [ih (aggStep st r)]
    have hstep : (aggStep st r).routes = routesStep st.routes r (rowBytes r) := rfl
    rw [hstep, routeUT_routesStep st.routes r (rowBytes r) route hne]
    by_cases hq : qualifies route r = true
    · rw [if_pos hq]
      rw [List.find?_cons_of_pos _ hq]
      rw [optOr_assoc]
      rfl
    · rw [if_neg hq, optOr_none_right]
      rw [List.find?_cons_of_neg _ (by simpa using hq)]

/-- C8: for every row sequence and nonempty route, the url/theme stored in
the route aggregate equal the `r.url || r.urlPath` and `r.theme` of the
first folded row with bin `dynamic_page_cache` and that route label, and
later rows for the same route never change them (the aggregate entry exists
exactly when such a row exists). -/
theorem routeStat_first_seen (rows : List Row) (route : String) (hne : route ≠ "") :
    (alGet (drupalAggregate rows).routes route).map (fun v => (v.url, v.theme))
      = (rows.find? (qualifies route)).map
          (fun r => (jsOrOpt r.url r.urlPath, r.theme)) := by
  have h := routeUT_foldl route hne rows initAgg
  have h0 : routeUT initAgg.routes route = none := rfl
  rw [h0, optOr_none_left] at h
  exact h

/-- Two sample rows with the same route and different urls and themes. -/
def sampleRows : List Row :=
  [{ key := "k1", bin := "dynamic_page_cache", route := some "home",
     url := some "u1", theme := some "t1" },
   { key := "k2", bin := "dynamic_page_cache", route := some "home",
     url := some "u2", theme := some "t2" }]

/-- Witness for C8: with two rows on the same route, the aggregate keeps the
first row's url and theme. -/
theorem routeStat_first_seen_witness :
    (alGet (drupalAggregate sampleRows).routes "home").map (fun v => (v.url, v.theme))
      = some (some "u1", some "t1") :=
  (routeStat_first_seen sampleRows "home" (by decide)).trans (by decide)

/-! ## CID search (`GET` in app/api/search-cid/route.ts) -/

theorem isPrefixOf_iff_exists (p : List Char) :
    ∀ s : List Char, p.isPrefixOf s = true ↔ ∃ rest, s = p ++ rest := by
  induction p with
  | nil =>
    intro s
    simp [List.isPrefixOf]
  | cons a p ih =>
    intro s
    cases s with
    | nil => simp [List.isPrefixOf]
    | cons b bs =>
      simp only [List.isPrefixOf, Bool.and_eq_true, beq_iff_eq, ih bs]
      constructor
      · rintro ⟨hab, rest, hr⟩
        exact ⟨rest, by simp [hab, hr]⟩
      · rintro ⟨rest, hr⟩
        simp only [List.cons_append, List.cons.injEq] at hr
        exact ⟨hr.1.symm, rest, hr.2⟩

/-- The code's `key.startsWith(PREFIX + ":")`. -/
def jsStartsWith (s pre : String) : Bool :=
  pre.toList.isPrefixOf s.toList

/-- The per-candidate filter in the scan loop of the CID search: keep a key
iff it starts with the prefix and colon, splits into at least 3 colon parts,
its third part truncated at the first `[` equals the query cid, and, when a
truthy bin filter is present, its second part equals that bin. -/
def cidKeep (pfx cid : String) (binq : Option String) (key : String) : Bool :=
  if jsStartsWith key (pfx ++ ":") then
    let parts := jsSplitOn ':' key.toList
    if 3 ≤ parts.length then
      let keyBin := parts.getD 1 []
      let keyCid := (jsSplitOn '[' (parts.getD 2 [])).headD []
      if keyCid = cid.toList then
        match binq with
        | none => true
        | some b => if b = "" then true else decide (keyBin = b.toList)
      else false
    else false
  else false

/-- The inner candidate loop of the CID search: filter each batch key,
forcing the cursor to `0` once the result limit is reached. -/
def collectBatch (keep : String → Bool) (limit : Nat) :
    List String → List String → String → List String × String
  | keys, [], next => (keys, next)
  | keys, k :: rest, next =>
    if keep k then
      let keys2 := keys ++ [k]
      if limit ≤ keys2.length then (keys2, "0")
      else collectBatch keep limit keys2 rest next
    else collectBatch keep limit keys rest next

/-- The `do/while` scan loop of the CID search, with the iteration counter
capped at `maxIter` and the result count capped at `limit`. -/
def cidSearchFuel (store : String → String × List String) (keep : String → Bool)
    (limit maxIter : Nat) : Nat → String → List String → Nat → Option (List String)
  | 0, _, _, _ => none
  | Nat.succ fuel, cursor, keys, iters =>
    let nb := store cursor
    let cb := collectBatch keep limit keys nb.2 nb.1
    let iters2 := iters + 1
    if maxIter ≤ iters2 ∨ limit ≤ cb.1.length then some cb.1
    else if cb.2 = "0" then some cb.1
    else cidSearchFuel store keep limit maxIter fuel cb.2 cb.1 iters2

/-- The CID search scan from the start cursor. -/
def cidSearchRun (store : String → String × List String) (keep : String → Bool)
    (limit maxIter fuel : Nat) : Option (List String) :=
  cidSearchFuel store keep limit maxIter fuel "0" [] 0

/-- The store of the spec's exactness example: one batch holding a key with
cid `abc` and a key with cid `abcdef`. -/
def demoStore : String → String × List String :=
  fun _ => ("0", ["p:render:abc[x]=1]", "p:render:abcdef[x]=1]"])

/-- C2: a candidate key is kept by the CID search iff it literally starts
with the prefix and a colon, has at least 3 colon-separated parts, its third
part truncated at the first `[` equals the query cid exactly, and, when a
(nonempty) bin filter is given, its second part equals that bin; on the
spec's example batch, searching cid `abc` keeps only the key with cid `abc`,
not the `abcdef` over-match. -/
theorem cidKeep_exact :
    (∀ (pfx cid key : String) (binq : Option String),
      cidKeep pfx cid binq key = true ↔
        ((∃ rest, key.toList = (pfx ++ ":").toList ++ rest) ∧
         3 ≤ (jsSplitOn ':' key.toList).length ∧
         ((jsSplitOn ':' key.toList).getD 2 []).takeWhile (fun x => x ≠ '[') = cid.toList ∧
         ∀ b, binq = some b → b ≠ "" →
           (jsSplitOn ':' key.toList).getD 1 [] = b.toList)) ∧
    cidSearchRun demoStore (cidKeep "p" "abc" none) 100 10 2
      = some ["p:render:abc[x]=1]"] := by
  constructor
  · intro pfx cid key binq
    unfold cidKeep jsStartsWith
    by_cases h1 : (pfx ++ ":").toList.isPrefixOf key.toList = true
    · rw [if_pos h1]
      by_cases h2 : 3 ≤ (jsSplitOn ':' key.toList).length
      · rw [if_pos h2]
        have hcid : (jsSplitOn '[' ((jsSplitOn ':' key.toList).getD 2 [])).headD []
            = ((jsSplitOn ':' key.toList).getD 2 []).takeWhile (fun x => x ≠ '[') :=
          jsSplitOn_headD '[' _
        by_cases h3 : (jsSplitOn '[' ((jsSplitOn ':' key.toList).getD 2 [])).headD []
            = cid.toList
        · rw [if_pos h3]
          rw [hcid] at h3
          cases binq with
          | none =>
            constructor
            · intro _
              exact ⟨(isPrefixOf_iff_exists _ _).mp h1, h2, h3,
                fun b hb => absurd hb (by simp)⟩
            · intro _
              rfl
          | some b =>
            show (if b = "" then true
                else decide ((jsSplitOn ':' key.toList).getD 1 [] = b.toList)) = true ↔ _
            by_cases hb : b = ""
            · rw [if_pos hb]
              constructor
              · intro _
                refine ⟨(isPrefixOf_iff_exists _ _).mp h1, h2, h3, ?_⟩
                intro b' hb' hne
                exact absurd ((Option.some_inj.mp hb').symm.trans hb) hne
              · intro _
                rfl
            · rw [if_neg hb]
              constructor
              · intro hkeep
                refine ⟨(isPrefixOf_iff_exists _ _).mp h1, h2, h3, ?_⟩
                intro b' hb' _
                rw [← Option.some_inj.mp hb']
                exact of_decide_eq_true hkeep
              · rintro ⟨_, _, _, hbin⟩
                exact decide_eq_true (hbin b rfl hb)
        · rw [if_neg h3]
          rw [hcid] at h3
          constructor
          · intro hf
            exact absurd hf (by simp)
          · rintro ⟨_, _, h3', _⟩
            exact absurd h3' h3
      · rw [if_neg h2]
        constructor
        · intro hf
          exact absurd hf (by simp)
        · rintro ⟨_, h2', _, _⟩
          exact absurd h2' h2
    · rw [if_neg h1]
      constructor
      · intro hf
        exact absurd hf (by simp)
      · rintro ⟨hex, _, _, _⟩
        exact absurd ((isPrefixOf_iff_exists _ _).mpr hex) h1
  · rfl

/-- Witness for C2's characterization at the example key: the filter keeps
`p:render:abc[x]=1]` when searching cid `abc` with no bin filter. -/
theorem cidKeep_exact_witness : cidKeep "p" "abc" none "p:render:abc[x]=1]" = true :=
  (cidKeep_exact.1 "p" "abc" "p:render:abc[x]=1]" none).mpr
    ⟨⟨"render:abc[x]=1]".toList, by decide⟩, by decide, by decide,
     fun b hb _ => absurd hb (by simp)⟩

/-! ### C6: per-key enrichment in the CID search -/

/-- One enriched search-result row (`keys[]` entry of the search response).
`ttl` and `type` are always present in the code (they have defaults), only
`size` is genuinely optional. -/
structure SearchRow where
  key : String
  bin : String
  cid : String
  ttl : JsTtl
  type : String
  size : Option Int
deriving DecidableEq, Repr

/-- Enrichment of one kept key (the `keys.map(async key => ...)` body):
`ttl` starts at `PERSIST` and is overwritten only when the TTL fetch
succeeds (with `-1` mapped back to `PERSIST`), `type` starts at `unknown`,
`size` stays absent on failure; the three fetches are independent. -/
def buildSearch (cid : String) (ttlO : String → Option Int)
    (typeO : String → Option String) (memO : String → Option Int)
    (key : String) : SearchRow :=
  let parts := jsSplitOn ':' key.toList
  let detectedBin : String :=
    match parts.get? 1 with
    | some l => if l = [] then "unknown" else String.mk l
    | none => "unknown"
  { key := key
    bin := detectedBin
    cid := cid
    ttl := match ttlO key with
      | some t => if t = -1 then JsTtl.persist else JsTtl.num t
      | none => JsTtl.persist
    type := (typeO key).getD "unknown"
    size := memO key }

/-- The whole enrichment pass over the kept keys (`Promise.all` preserves
order and length). -/
def searchEnrich (cid : String) (ttlO : String → Option Int)
    (typeO : String → Option String) (memO : String → Option Int)
    (keys : List String) : List SearchRow :=
  keys.map (buildSearch cid ttlO typeO memO)

/-- C6 (counterexample): when every enrichment fetch fails for a key, the
row is still produced, but its ttl is the present value `PERSIST` and its
type the present value `unknown` — not absent fields as the claim states;
only `size` is left absent. -/
theorem searchEnrich_failure_cex :
    buildSearch "c" (fun _ => none) (fun _ => none) (fun _ => none) "k"
        = { key := "k", bin := "unknown", cid := "c", ttl := JsTtl.persist,
            type := "unknown", size := none } ∧
      searchEnrich "c" (fun _ => none) (fun _ => none) (fun _ => none) ["k"]
        = [{ key := "k", bin := "unknown", cid := "c", ttl := JsTtl.persist,
             type := "unknown", size := none }] := by
  constructor <;> rfl

/-- C6 (amended): when a per-key enrichment fetch fails, the corresponding
field of that key's row takes its default (`PERSIST` for ttl, `unknown` for
type, absent for size), the row is still included in the results, and each
field depends only on its own fetch, so the other fields are unaffected. -/
theorem searchEnrich_failure_isolated (cid key : String) (keys : List String)
    (t1 t2 : String → Option Int) (y1 y2 : String → Option String)
    (m1 m2 : String → Option Int) (hk : key ∈ keys) :
    (buildSearch cid t1 y1 m1 key ∈ searchEnrich cid t1 y1 m1 keys) ∧
    (t1 key = none → (buildSearch cid t1 y1 m1 key).ttl = JsTtl.persist) ∧
    (y1 key = none → (buildSearch cid t1 y1 m1 key).type = "unknown") ∧
    (m1 key = none → (buildSearch cid t1 y1 m1 key).size = none) ∧
    ((buildSearch cid t1 y1 m1 key).ttl = (buildSearch cid t1 y2 m2 key).ttl) ∧
    ((buildSearch cid t1 y1 m1 key).type = (buildSearch cid t2 y1 m2 key).type) ∧
    ((buildSearch cid t1 y1 m1 key).size = (buildSearch cid t2 y2 m1 key).size) := by
  refine ⟨List.mem_map_of_mem _ hk, ?_, ?_, ?_, rfl, rfl, rfl⟩
  · intro h
    simp [buildSearch, h]
  · intro h
    simp [buildSearch, h]
  · intro h
    simp [buildSearch, h]

/-- Witness for the amended C6 theorem: one key with all fetches failing. -/
theorem searchEnrich_failure_isolated_witness :
    (buildSearch "c" (fun _ => none) (fun _ => none) (fun _ => none) "k"
        ∈ searchEnrich "c" (fun _ => none) (fun _ => none) (fun _ => none) ["k"]) ∧
    (buildSearch "c" (fun _ => none) (fun _ => none) (fun _ => none) "k").ttl
        = JsTtl.persist ∧
    (buildSearch "c" (fun _ => none) (fun _ => none) (fun _ => none) "k").type
        = "unknown" ∧
    (buildSearch "c" (fun _ => none) (fun _ => none) (fun _ => none) "k").size
        = none := by
  have h := searchEnrich_failure_isolated "c" "k" ["k"]
    (fun _ => none) (fun _ => none) (fun _ => none) (fun _ => none)
    (fun _ => none) (fun _ => none) (by simp)
  exact ⟨h.1, h.2.1 rfl, h.2.2.1 rfl, h.2.2.2.1 rfl⟩

/-! ## Info-text parser (`parseInfo`, identical in both route files for
non-section lines)

The numeric coercion `Number(v)` / `Number.isFinite` is modelled exactly on
rationals: `jsFiniteNumber` returns `some q` when JS would produce a finite
number (whitespace-trimmed decimal, hex, octal or binary literal; the empty
string is 0) and `none` when JS would produce NaN or an infinity. -/

/-- JS whitespace as trimmed by `Number()` and `trim()` (the common cases:
ASCII whitespace, no-break space, BOM). -/
def isJsSpace (c : Char) : Bool :=
  c = ' ' || c = '\t' || c = '\n' || c = '\r' || c = '\x0b' || c = '\x0c' ||
    c = '\u00A0' || c = '\uFEFF'

/-- JS `String.prototype.trim` on a char list. -/
def jsTrim (l : List Char) : List Char :=
  ((l.dropWhile isJsSpace).reverse.dropWhile isJsSpace).reverse

def isDig (c : Char) : Bool := '0' ≤ c && c ≤ '9'

def digToNat (c : Char) : Nat := c.toNat - '0'.toNat

def natOfDigits (l : List Char) : Nat :=
  l.foldl (fun a c => a * 10 + digToNat c) 0

def isHexDig (c : Char) : Bool :=
  isDig c || ('a' ≤ c && c ≤ 'f') || ('A' ≤ c && c ≤ 'F')

def hexToNat (c : Char) : Nat :=
  if isDig c then digToNat c
  else if 'a' ≤ c && c ≤ 'f' then c.toNat - 'a'.toNat + 10
  else c.toNat - 'A'.toNat + 10

def natOfHex (l : List Char) : Nat :=
  l.foldl (fun a c => a * 16 + hexToNat c) 0

def isOctDig (c : Char) : Bool := '0' ≤ c && c ≤ '7'

def natOfOct (l : List Char) : Nat :=
  l.foldl (fun a c => a * 8 + digToNat c) 0

def isBinDig (c : Char) : Bool := c = '0' || c = '1'

def natOfBin (l : List Char) : Nat :=
  l.foldl (fun a c => a * 2 + digToNat c) 0

/-- Scale an exact value by a power of ten (the exponent part). -/
def applyExp (q : ℚ) (e : Int) : ℚ :=
  if 0 ≤ e then q * (10 : ℚ) ^ e.toNat else q / (10 : ℚ) ^ (-e).toNat

/-- Parse the optional exponent tail of a decimal literal; anything else
after the digits makes the whole literal NaN. -/
def parseExpTail : List Char → Option Int
  | [] => some 0
  | c :: cs =>
    if c = 'e' ∨ c = 'E' then
      match cs with
      | '+' :: ds => if !ds.isEmpty && ds.all isDig then some (natOfDigits ds : Int) else none
      | '-' :: ds => if !ds.isEmpty && ds.all isDig then some (-(natOfDigits ds : Int)) else none
      | ds => if !ds.isEmpty && ds.all isDig then some (natOfDigits ds : Int) else none
    else none

/-- Parse an unsigned decimal literal (digits, optional point, optional
exponent); `none` for NaN. -/
def parseUDec (l : List Char) : Option ℚ :=
  let ip := l.takeWhile isDig
  let r1 := l.drop ip.length
  match r1 with
  | '.' :: r2 =>
    let fp := r2.takeWhile isDig
    let r3 := r2.drop fp.length
    if ip.isEmpty && fp.isEmpty then none
    else (parseExpTail r3).map (fun e =>
      applyExp ((natOfDigits ip : ℚ) + (natOfDigits fp : ℚ) / (10 : ℚ) ^ fp.length) e)
  | _ =>
    if ip.isEmpty then none
    else (parseExpTail r1).map (fun e => applyExp ((natOfDigits ip : ℚ)) e)

/-- Unsigned decimal or Infinity; Infinity is not finite, hence `none`. -/
def parsePosDec (l : List Char) : Option ℚ :=
  if l = "Infinity".toList then none else parseUDec l

/-- Optional sign then an unsigned decimal literal. -/
def parseSigned (l : List Char) : Option ℚ :=
  match l with
  | '+' :: r => parsePosDec r
  | '-' :: r => (parsePosDec r).map (fun q => -q)
  | _ => parsePosDec l

/-- JS `Number(v)` restricted to results accepted by `Number.isFinite`:
`some q` iff JS would store the number, `none` iff NaN or an infinity. -/
def jsFiniteNumber (v : List Char) : Option ℚ :=
  let s := jsTrim v
  match s with
  | [] => some 0
  | '0' :: c :: rest =>
    if c = 'x' ∨ c = 'X' then
      (if !rest.isEmpty && rest.all isHexDig then some ((natOfHex rest : ℚ)) else none)
    else if c = 'o' ∨ c = 'O' then
      (if !rest.isEmpty && rest.all isOctDig then some ((natOfOct rest : ℚ)) else none)
    else if c = 'b' ∨ c = 'B' then
      (if !rest.isEmpty && rest.all isBinDig then some ((natOfBin rest : ℚ)) else none)
    else parseSigned s
  | _ => parseSigned s

/-- A parsed info value: a finite number or the trimmed text. -/
inductive InfoVal where
  | num : ℚ → InfoVal
  | str : String → InfoVal
deriving DecidableEq, Repr

/-- `Number.isFinite(num) ? num : v.trim()`. -/
def coerceVal (v : List Char) : InfoVal :=
  match jsFiniteNumber v with
  | some q => InfoVal.num q
  | none => InfoVal.str (String.mk (jsTrim v))

/-- The parser state: the accumulated sections and the current section. -/
structure InfoState where
  sections : List (String × List (String × InfoVal))
  current : String
deriving DecidableEq, Repr

/-- Assignment `out[cur][k] = v` (the current section always exists). -/
def alSet2 (secs : List (String × List (String × InfoVal))) (cur k : String)
    (v : InfoVal) : List (String × List (String × InfoVal)) :=
  alSet secs cur (alSet ((alGet secs cur).getD []) k v)

/-- One line of `parseInfo` (the variant of app/api/config/route.ts; the
drupal-route variant differs only on lines consisting of `#` alone, which
neither claim touches): blank lines are skipped, `#` opens (and resets) a
section, other lines split on `:` keeping only the first two parts. -/
def parseInfoStep (st : InfoState) (line : List Char) : InfoState :=
  match line with
  | [] => st
  | c :: cs =>
    if c = '#' then
      let sec := String.mk (jsTrim cs)
      { sections := alSet st.sections sec [], current := sec }
    else
      let parts := jsSplitOn ':' (c :: cs)
      match parts.get? 1 with
      | none => st
      | some v =>
        let k := parts.headD []
        if k = [] then st
        else { st with sections := alSet2 st.sections st.current (String.mk k) (coerceVal v) }

/-- `parseInfo`: split the text on newlines and fold the line parser from
the implicit `default` section. -/
def parseInfo (text : String) : List (String × List (String × InfoVal)) :=
  ((jsSplitOn '\n' text.toList).foldl parseInfoStep
    { sections := [("default", [])], current := "default" }).sections

/-- C4 (counterexample): for the line `k:a:b` the stored value is `a` (the
text between the first and second colon), not `a:b` as the claim states. -/
theorem parseInfo_second_part_cex :
    (alGet (parseInfo "k:a:b") "default") = some [("k", InfoVal.str "a")] ∧
    (alGet (parseInfo "k:a:b") "default") ≠ some [("k", InfoVal.str "a:b")] := by
  constructor
  · rfl
  · intro h
    have h2 : ([("k", InfoVal.str "a")] : List (String × InfoVal))
        = [("k", InfoVal.str "a:b")] := by
      have h1 : (alGet (parseInfo "k:a:b") "default") = some [("k", InfoVal.str "a")] := rfl
      exact Option.some_inj.mp (h1.symm.trans h)
    simp at h2

/-- C4 (amended): a non-empty line that does not open a section is split on
`:`; the key is the text before the first colon and the stored value is the
text between the first and second colon (anything after a second colon is
discarded), trimmed and coerced to a number when it parses as a finite
number, else kept as trimmed text; lines with no colon or an empty key are
skipped. -/
theorem parseInfoStep_line (st : InfoState) (c : Char) (cs : List Char)
    (hc : c ≠ '#') :
    parseInfoStep st (c :: cs) =
      (if hasChar (c :: cs) ':' then
        (if (c :: cs).takeWhile (fun x => x ≠ ':') = [] then st
         else { st with
                sections := alSet2 st.sections st.current
                  (String.mk ((c :: cs).takeWhile (fun x => x ≠ ':')))
                  (coerceVal ((((c :: cs).dropWhile (fun x => x ≠ ':')).tail).takeWhile
                    (fun x => x ≠ ':'))) })
       else st) := by
  simp only [parseInfoStep, if_neg hc]
  by_cases hcol : hasChar (c :: cs) ':' = true
  · rw [if_pos hcol, jsSplitOn_get1_some ':' (c :: cs) hcol, jsSplitOn_headD]
  · rw [if_neg hcol, jsSplitOn_get1_none ':' (c :: cs) (by simpa using hcol)]

/-- Witness for the amended C4 theorem at the line `k:a:b`. -/
theorem parseInfoStep_line_witness :
    parseInfoStep { sections := [("default", [])], current := "default" }
        ("k:a:b".toList)
      = { sections := [("default", [("k", InfoVal.str "a")])], current := "default" } := by
  have h := parseInfoStep_line
    { sections := [("default", [])], current := "default" } 'k' (":a:b".toList)
    (by decide)
  rw [show ("k:a:b".toList) = 'k' :: (":a:b".toList) from rfl, h]
  decide

/-! ## Sanitized config endpoint (`GET` of the config env route) -/

/-- The environment variables read by the config endpoint; `none` is an
unset variable, `some s` a variable set to `s` (possibly empty). -/
structure Env where
  REDIS_URL : Option String
  REDIS_HOST : Option String
  REDIS_PORT : Option String
  REDIS_PASSWORD : Option String
  REDIS_USERNAME : Option String
  REDIS_TLS : Option String
  REDIS_CLUSTER : Option String
  DRUPAL_REDIS_PREFIX : Option String
  DRUPAL_SCAN_LIMIT : Option String
  DRUPAL_TOP_LIMIT : Option String
  TOP_KEYS_SAMPLE_COUNT : Option String
  TOP_KEYS_LIMIT : Option String
deriving DecidableEq, Repr

/-- JS `x || ''` on an env variable. -/
def orEmptyS (o : Option String) : String := o.getD ""

/-- JS truthiness of an env variable (`undefined` and `''` are falsy). -/
def jsTruthyStr (o : Option String) : Bool :=
  match o with
  | some s => !(s = "")
  | none => false

/-- The config `GET` handler: every option is echoed (empty when unset),
except that `REDIS_PASSWORD` is replaced by the mask `***` when truthy. -/
def configGET (e : Env) : List (String × String) :=
  [("REDIS_URL", orEmptyS e.REDIS_URL),
   ("REDIS_HOST", orEmptyS e.REDIS_HOST),
   ("REDIS_PORT", orEmptyS e.REDIS_PORT),
   ("REDIS_PASSWORD", if jsTruthyStr e.REDIS_PASSWORD then "***" else ""),
   ("REDIS_USERNAME", orEmptyS e.REDIS_USERNAME),
   ("REDIS_TLS", orEmptyS e.REDIS_TLS),
   ("REDIS_CLUSTER", orEmptyS e.REDIS_CLUSTER),
   ("DRUPAL_REDIS_PREFIX", orEmptyS e.DRUPAL_REDIS_PREFIX),
   ("DRUPAL_SCAN_LIMIT", orEmptyS e.DRUPAL_SCAN_LIMIT),
   ("DRUPAL_TOP_LIMIT", orEmptyS e.DRUPAL_TOP_LIMIT),
   ("TOP_KEYS_SAMPLE_COUNT", orEmptyS e.TOP_KEYS_SAMPLE_COUNT),
   ("TOP_KEYS_LIMIT", orEmptyS e.TOP_KEYS_LIMIT)]

/-- An environment with only `REDIS_PASSWORD` set, to the empty string. -/
def envEmptyPw : Env :=
  { REDIS_URL := none, REDIS_HOST := none, REDIS_PORT := none,
    REDIS_PASSWORD := some "", REDIS_USERNAME := none, REDIS_TLS := none,
    REDIS_CLUSTER := none, DRUPAL_REDIS_PREFIX := none,
    DRUPAL_SCAN_LIMIT := none, DRUPAL_TOP_LIMIT := none,
    TOP_KEYS_SAMPLE_COUNT := none, TOP_KEYS_LIMIT := none }

/-- C10 (counterexample): with `REDIS_PASSWORD` set to the empty string the
variable is set, yet the endpoint reports the empty string rather than the
mask `***` as the claim states. -/
theorem configGET_mask_cex :
    envEmptyPw.REDIS_PASSWORD.isSome = true ∧
    alGet (configGET envEmptyPw) "REDIS_PASSWORD" = some "" ∧
    alGet (configGET envEmptyPw) "REDIS_PASSWORD" ≠ some "***" := by
  refine ⟨rfl, rfl, ?_⟩
  intro h
  have h1 : alGet (configGET envEmptyPw) "REDIS_PASSWORD" = some "" := rfl
  have h2 : ("" : String) = "***" := Option.some_inj.mp (h1.symm.trans h)
  simp at h2

/-- C10 (amended): the endpoint reports `REDIS_PASSWORD` as `***` exactly
when the variable is set to a nonempty value and as the empty string
otherwise, and any two environments that differ only in their (nonempty)
password values produce identical responses — the password value never
flows into the output. -/
theorem configGET_password_masked (e e1 e2 : Env)
    (hurl : e1.REDIS_URL = e2.REDIS_URL) (hhost : e1.REDIS_HOST = e2.REDIS_HOST)
    (hport : e1.REDIS_PORT = e2.REDIS_PORT)
    (huser : e1.REDIS_USERNAME = e2.REDIS_USERNAME)
    (htls : e1.REDIS_TLS = e2.REDIS_TLS)
    (hclu : e1.REDIS_CLUSTER = e2.REDIS_CLUSTER)
    (hpfx : e1.DRUPAL_REDIS_PREFIX = e2.DRUPAL_REDIS_PREFIX)
    (hscan : e1.DRUPAL_SCAN_LIMIT = e2.DRUPAL_SCAN_LIMIT)
    (htop : e1.DRUPAL_TOP_LIMIT = e2.DRUPAL_TOP_LIMIT)
    (hsmp : e1.TOP_KEYS_SAMPLE_COUNT = e2.TOP_KEYS_SAMPLE_COUNT)
    (hlim : e1.TOP_KEYS_LIMIT = e2.TOP_KEYS_LIMIT)
    (hp1 : jsTruthyStr e1.REDIS_PASSWORD = true)
    (hp2 : jsTruthyStr e2.REDIS_PASSWORD = true) :
    alGet (configGET e) "REDIS_PASSWORD"
        = some (if jsTruthyStr e.REDIS_PASSWORD then "***" else "") ∧
    configGET e1 = configGET e2 := by
  constructor
  · rfl
  · simp only [configGET, hurl, hhost, hport, huser, htls, hclu, hpfx, hscan,
      htop, hsmp, hlim, hp1, hp2, if_true]

/-- Witness for the amended C10 theorem: two environments with different
nonempty passwords give identical responses, and the password field reads
as the mask. -/
theorem configGET_password_masked_witness :
    alGet (configGET { envEmptyPw with REDIS_PASSWORD := some "hunter2" })
        "REDIS_PASSWORD" = some "***" ∧
    configGET { envEmptyPw with REDIS_PASSWORD := some "hunter2" }
      = configGET { envEmptyPw with REDIS_PASSWORD := some "swordfish" } := by
  have h := configGET_password_masked
    { envEmptyPw with REDIS_PASSWORD := some "hunter2" }
    { envEmptyPw with REDIS_PASSWORD := some "hunter2" }
    { envEmptyPw with REDIS_PASSWORD := some "swordfish" }
    rfl rfl rfl rfl rfl rfl rfl rfl rfl rfl rfl (by decide) (by decide)
  exact ⟨h.1.trans (by decide), h.2⟩

end RedisReport
